import Mathlib

/-!
# Selector-synthesis and cross-validation engine: shallow embedding

This file embeds the core of `src/utils/agentql.py` of the `eyra-scraper`
repository: the text normalizer and numeric coercer, the document model and
structural addressing (modelling the `parsel`/`lxml` tree, `getpath` and the
specific XPath queries issued by the engine), the three field locators
(`_find_title_selector`, `_find_price_selector`, `_find_currency_selector`),
the value extractor (`extract_values_with_selectors`), the consistency
validator (`compare_selectors_with_agentql`) and the entry point
(`extract_selectors`).

Modelling conventions:
* Python strings are `String` (lists of unicode code points); `str.lower` /
  `str.upper` are modelled on the ASCII range (`translate` in the code's
  XPath queries likewise only folds A-Z), which covers every character
  class the engine manipulates.
* Python floats are modelled as `ℚ`.  The engine only formats and compares
  prices that are short decimal fractions, where CPython float printing
  agrees with exact decimal printing; the formatting helpers document this.
* Fallible Python code (`try`/`except`, `None` returns) is `Option`.
* A parsed document is a concrete tree; `Selector(text=html)` failing is
  modelled by passing `none` for the document.
-/

/- The Batteries rational arithmetic is `@[irreducible]`, which blocks kernel
evaluation of concrete price computations; restore the default reducibility
locally so that closed statements about the engine can be settled by `decide`. -/
attribute [local semireducible] Rat.add Rat.mul Rat.inv Rat.sub Rat.ofScientific

namespace EyraScraper

/-! ## Text utilities: Python `str` operations used by the engine -/

/-- Whitespace test used by Python `str.split()` / `str.strip()`
(restricted to the whitespace characters occurring in this development). -/
def isWsChar (c : Char) : Bool := c.isWhitespace

/-- Python `str.lower`, modelled by the core ASCII fold `Char.toLower` —
also the model of the `translate(..., 'ABC...', 'abc...')` XPath calls. -/
def lowerStr (s : String) : String := String.mk (s.data.map Char.toLower)

/-- Python `str.upper`, modelled by the core ASCII fold `Char.toUpper`. -/
def upperStr (s : String) : String := String.mk (s.data.map Char.toUpper)

/-- Word splitter: Python `str.split()` with no argument (split on whitespace
runs, drop empty words).  `acc` holds the current word reversed. -/
def splitWsAux : List Char → List Char → List (List Char)
  | [], acc => if acc = [] then [] else [acc.reverse]
  | c :: rest, acc =>
    if isWsChar c then
      if acc = [] then splitWsAux rest [] else acc.reverse :: splitWsAux rest []
    else splitWsAux rest (c :: acc)

def splitWs (l : List Char) : List (List Char) := splitWsAux l []

/-- `" ".join ws` -/
def joinSpace : List (List Char) → List Char
  | [] => []
  | [w] => w
  | w :: ws => w ++ ' ' :: joinSpace ws

/-- `_normalize_text`: `" ".join(text.split())` (collapse whitespace runs to
single spaces and trim the ends). -/
def normalizeText (s : String) : String := String.mk (joinSpace (splitWs s.data))

/-- `startsWithL needle l`: does `l` start with `needle`? -/
def startsWithL : List Char → List Char → Bool
  | [], _ => true
  | _ :: _, [] => false
  | a :: as, b :: bs => a = b && startsWithL as bs

/-- Python substring test `needle in hay`. -/
def containsSub (needle hay : List Char) : Bool :=
  match hay with
  | [] => needle.isEmpty
  | _ :: t => startsWithL needle hay || containsSub needle t

/-- Python `str.strip()` on a character list. -/
def stripWsL (l : List Char) : List Char :=
  ((l.dropWhile isWsChar).reverse.dropWhile isWsChar).reverse

/-- Python `str.strip()`. -/
def stripWs (s : String) : String := String.mk (stripWsL s.data)

/-! ## Numeric coercion: `_extract_numeric_value` -/

/-- The value of a string of decimal digits. -/
def natOfDigits (l : List Char) : ℕ :=
  l.foldl (fun n c => 10 * n + (c.toNat - 48)) 0

/-- Models CPython `float(s)` for strings consisting solely of decimal digits
and `.` characters — the only shape that reaches the `float` calls in
`_extract_numeric_value` (its input has been filtered to digits, commas and
periods and commas have been replaced by periods).  The parse succeeds iff
the string has at least one digit and at most one dot. -/
def pyFloatParse (l : List Char) : Option ℚ :=
  if l.count '.' ≤ 1 ∧ l.any Char.isDigit then
    let ip := l.takeWhile (fun c => c ≠ '.')
    let fp := (l.dropWhile (fun c => c ≠ '.')).drop 1
    some ((natOfDigits ip : ℚ) + (natOfDigits fp : ℚ) / (10 : ℚ) ^ fp.length)
  else none

/-- A Python `Union[str, float]` value (the engine's price inputs). -/
inductive PyVal where
  | str (s : String)
  | num (q : ℚ)
deriving DecidableEq

/-- `re.sub(r'[^\d.,]', '', s)`: keep only digits, commas and periods. -/
def keepNumeric (l : List Char) : List Char :=
  l.filter (fun c => c.isDigit || c = ',' || c = '.')

/-- `str.replace(',', '.')` on one character. -/
def commaToDot (c : Char) : Char := if c = ',' then '.' else c

/-- Python `s.split('.')`. -/
def splitOnDot : List Char → List (List Char)
  | [] => [[]]
  | c :: rest =>
    match splitOnDot rest with
    | [] => [[]]
    | p :: ps => if c = '.' then [] :: p :: ps else (c :: p) :: ps

/-- The `if len(parts) > 2: price_clean = ''.join(parts[:-1]) + '.' + parts[-1]`
step of `_extract_numeric_value`: keep only the last dot as the decimal
point. -/
def pyDotNormalize (l : List Char) : List Char :=
  let parts := splitOnDot l
  if parts.length > 2 then
    (parts.dropLast.foldr (· ++ ·) []) ++ '.' :: (parts.getLast?.getD [])
  else l

/-- `_extract_numeric_value` (the spec's `coerceNumber`): numbers pass
through; strings are stripped to digits/commas/periods, commas become dots,
all dots but the last are dropped, and a failed parse yields the sentinel
`0.0`. -/
def extract_numeric_value (v : PyVal) : ℚ :=
  match v with
  | .num q => q
  | .str s =>
    let c1 := keepNumeric s.data
    let c2 := c1.map commaToDot
    let c3 := pyDotNormalize c2
    match pyFloatParse c3 with
    | some q => q
    | none => 0

/-! ### The coercion as the specification words it -/

def isSep (c : Char) : Bool := c = ',' || c = '.'

/-- Split a character list around its *last* separator (comma or period):
`some (before, after)` with the separator removed, `none` when there is no
separator. -/
def lastSepSplit : List Char → Option (List Char × List Char)
  | [] => none
  | c :: rest =>
    match lastSepSplit rest with
    | some (b, a) => some (c :: b, a)
    | none => if isSep c then some ([], rest) else none

/-- `coerceNumber` as §4.2 of the specification words it: strip everything
except digits, commas and periods; treat only the final remaining separator
as the decimal point, concatenating all preceding separators away; parse
failure (no digits at all) yields the sentinel `0.0`. -/
def coerceNumberSpec (s : String) : ℚ :=
  let clean := keepNumeric s.data
  if clean.filter Char.isDigit = [] then 0
  else
    match lastSepSplit clean with
    | none => (natOfDigits clean : ℚ)
    | some (b, a) =>
      (natOfDigits (b.filter Char.isDigit) : ℚ) + (natOfDigits a : ℚ) / (10 : ℚ) ^ a.length

/-! ## The document model

`Selector(text=html)` parses HTML into an `lxml` element tree.  We model the
tree directly: an element has a tag, an attribute list and interleaved
element/text children.  (lxml escapes `&<>` in serialized text; the documents
in this development contain none of those characters.)  A mutual pair of
inductives (rather than a nested `List`) keeps every recursion structural,
so that closed facts about concrete documents evaluate in the kernel. -/

mutual
inductive HTree where
  | text (s : String)
  | elem (tag : String) (attrs : List (String × String)) (children : HForest)

inductive HForest where
  | nil
  | cons (h : HTree) (t : HForest)
end

def HForest.toList : HForest → List HTree
  | .nil => []
  | .cons h t => h :: HForest.toList t

def HForest.ofList : List HTree → HForest
  | [] => .nil
  | h :: t => .cons h (HForest.ofList t)

def HTree.isElem : HTree → Bool
  | .elem .. => true
  | .text _ => false

/-- The element's tag (`""` for text nodes, which are never addressed). -/
def HTree.tagName : HTree → String
  | .elem t .. => t
  | .text _ => ""

def HTree.childrenL : HTree → List HTree
  | .elem _ _ cs => cs.toList
  | .text _ => []

def HTree.attrsL : HTree → List (String × String)
  | .elem _ a _ => a
  | .text _ => []

/-- The element children of a node, in document order.  lxml addresses
(`getpath`, XPath child steps, sibling axes) count only element children. -/
def elemChildren (t : HTree) : List HTree := t.childrenL.filter HTree.isElem

/-- XPath `@name` string value: the attribute's value, `""` when absent. -/
def attrVal (t : HTree) (a : String) : String :=
  match t.attrsL.find? (fun p => p.1 = a) with
  | some p => p.2
  | none => ""

/-- String value of the first node of the XPath `text()` node set: the first
direct text child, `""` when there is none.  This is what
`contains(text(), ...)` and `translate(text(), ...)` operate on. -/
def firstDirectText (t : HTree) : String :=
  match t.childrenL.find? (fun c => !c.isElem) with
  | some (.text s) => s
  | _ => ""

def attrsString (attrs : List (String × String)) : String :=
  attrs.foldl (fun acc p => acc ++ " " ++ p.1 ++ "=\x22" ++ p.2 ++ "\x22") ""

mutual
/-- Models parsel `Selector.get()` / lxml `tostring(..., with_tail=False)`:
the outer-HTML serialization of a node.  This — tags and attributes
included — is the string the engine's `_normalize_text(elem.get())` calls
compare against. -/
def serialize : HTree → String
  | .text s => s
  | .elem tg a cs =>
    "<" ++ tg ++ attrsString a ++ ">" ++ serializeF cs ++ "</" ++ tg ++ ">"

def serializeF : HForest → String
  | .nil => ""
  | .cons c rest => serialize c ++ serializeF rest
end

mutual
/-- The XPath `.//text()` node set of a node: all descendant text node
contents in document order. -/
def textsInOrder : HTree → List String
  | .text s => [s]
  | .elem _ _ cs => textsF cs

def textsF : HForest → List String
  | .nil => []
  | .cons c rest => textsInOrder c ++ textsF rest
end

/-! ### Structural addressing

A node is addressed by the list of element-child indices from the document
root (lxml object identity corresponds to position in the tree). -/

/-- Resolve an element-child index path. -/
def nodeAt : HTree → List ℕ → Option HTree
  | t, [] => some t
  | t, i :: p =>
    match (elemChildren t)[i]? with
    | some c => nodeAt c p
    | none => none

def tagAt (doc : HTree) (a : List ℕ) : String :=
  match nodeAt doc a with
  | some n => n.tagName
  | none => ""

def serializeAt (doc : HTree) (a : List ℕ) : String :=
  match nodeAt doc a with
  | some n => serialize n
  | none => ""

def firstTextAt (doc : HTree) (a : List ℕ) : String :=
  match nodeAt doc a with
  | some n => firstDirectText n
  | none => ""

def textsAt (doc : HTree) (a : List ℕ) : List String :=
  match nodeAt doc a with
  | some n => textsInOrder n
  | none => []

mutual
/-- Addresses of a node and all its element descendants, in document order
(preorder) — the order in which `//*`-style scans and `selector.css(tag)`
visit elements. -/
def subAddrs : HTree → List (List ℕ)
  | .text _ => [[]]
  | .elem _ _ cs => [] :: subAddrsF cs 0

def subAddrsF : HForest → ℕ → List (List ℕ)
  | .nil, _ => []
  | .cons (.text _) rest, i => subAddrsF rest i
  | .cons c rest, i => (subAddrs c).map (fun q => i :: q) ++ subAddrsF rest (i + 1)
end

/-- All elements of the document with the given tag, in document order:
`selector.css(tag)`. -/
def tagAddrs (doc : HTree) (tg : String) : List (List ℕ) :=
  (subAddrs doc).filter (fun a => tagAt doc a = tg)

/-- All elements whose attribute `attr` contains (as a literal substring) one
of `keys`: the `//*[contains(@class, ...) or ...]` scans. -/
def classIdAddrs (doc : HTree) (attr : String) (keys : List String) : List (List ℕ) :=
  (subAddrs doc).filter (fun a =>
    match nodeAt doc a with
    | some n => keys.any (fun k => containsSub k.data (attrVal n attr).data)
    | none => false)

/-! ### `getpath` and XPath resolution

One step of a structural XPath: a tag and an optional 1-based position
predicate.  `lxml`'s `ElementTree.getpath` (used by
`_get_xpath_from_element`) emits `tag[k]` when the element has same-tag
siblings and plain `tag` otherwise. -/

def XStep := String × Option ℕ
deriving instance DecidableEq for XStep

/-- An absolute structural XPath, as produced by `getpath`:
`/html/body/div[2]/span` becomes
`[(html, none), (body, none), (div, some 2), (span, none)]`. -/
def AbsPath := List XStep
deriving instance DecidableEq for AbsPath

/-- The `getpath` step for the `i`-th element child of `t`. -/
def stepFor (t : HTree) (i : ℕ) : Option XStep :=
  match (elemChildren t)[i]? with
  | none => none
  | some c =>
    let tg := c.tagName
    let same := (elemChildren t).filter (fun d => d.tagName = tg)
    some (tg,
      if same.length > 1 then
        some (1 + (((elemChildren t).take i).filter (fun d => d.tagName = tg)).length)
      else none)

/-- The steps of `getpath` below the document root, along an index path. -/
def relSteps : HTree → List ℕ → Option (List XStep)
  | _, [] => some []
  | t, i :: p =>
    match stepFor t i, (elemChildren t)[i]? with
    | some s, some c => (relSteps c p).map (fun r => s :: r)
    | _, _ => none

/-- Models `etree.ElementTree(root).getpath(node)` for the node at index
path `a` (this is what `_get_xpath_from_element` returns for a parsel
element `Selector`, whose `root` attribute always holds the lxml node). -/
def getpathAbs (doc : HTree) (a : List ℕ) : Option AbsPath :=
  (relSteps doc a).map (fun r => ((doc.tagName, none) : XStep) :: r)

/-- Positions (ascending) of the element children of `t` carrying tag `tg`;
`i0` is the index of the first child.  Models the XPath `child::tg` axis. -/
def matchIdxsAux : List HTree → String → ℕ → List ℕ
  | [], _, _ => []
  | c :: cs, tg, i =>
    if c.tagName = tg then i :: matchIdxsAux cs tg (i + 1)
    else matchIdxsAux cs tg (i + 1)

def matchIdxs (t : HTree) (tg : String) : List ℕ :=
  matchIdxsAux (elemChildren t) tg 0

/-- Evaluate the steps of a structural XPath below a context node, returning
the index paths of all matching nodes in document order. -/
def resolveRel : HTree → List XStep → List (List ℕ)
  | _, [] => [[]]
  | t, (tg, pos) :: rest =>
    let idxs := matchIdxs t tg
    let chosen :=
      match pos with
      | none => idxs
      | some k => (idxs.drop (k - 1)).take 1
    chosen.flatMap (fun i =>
      match (elemChildren t)[i]? with
      | some c => (resolveRel c rest).map (fun q => i :: q)
      | none => [])

/-- Evaluate an absolute structural XPath against a document:
`selector.xpath(path)`, returning index paths in document order. -/
def resolveAbs (doc : HTree) (p : AbsPath) : List (List ℕ) :=
  match p with
  | [] => []
  | ((tg, pos) : XStep) :: rest =>
    if doc.tagName = tg ∧ (pos = none ∨ pos = some 1) then resolveRel doc rest
    else []

/-- The XPath `preceding-sibling::*[1]` target of the node at `a`:
the nearest preceding element sibling. -/
def precedingSiblingAddr (a : List ℕ) : Option (List ℕ) :=
  match a.getLast? with
  | none => none
  | some i => if i = 0 then none else some (a.dropLast ++ [i - 1])

/-- The XPath `following-sibling::*[1]` target of the node at `a`:
the nearest following element sibling. -/
def followingSiblingAddr (doc : HTree) (a : List ℕ) : Option (List ℕ) :=
  match a.getLast? with
  | none => none
  | some i =>
    match nodeAt doc a.dropLast with
    | none => none
    | some parent =>
      if i + 1 < (elemChildren parent).length then some (a.dropLast ++ [i + 1])
      else none

/-! ## Models of the regular-expression scans

Each `re` pattern used by the engine is modelled by a direct left-to-right
scanner with the same leftmost-match semantics. -/

def currencyGlyphs : List Char := ['$', '€', '£', '¥', '₹']

/-- `\d+\.?\d*` matched greedily at the head of `l` (requires a leading
digit). -/
def numTokenAt (l : List Char) : Option (List Char) :=
  let ds := l.takeWhile Char.isDigit
  if ds.isEmpty then none
  else
    match l.drop ds.length with
    | '.' :: r2 => some (ds ++ '.' :: r2.takeWhile Char.isDigit)
    | _ => some ds

/-- Leftmost match of `([$€£¥₹])\s*(\d+\.?\d*)`, returning the number group
(`re.findall(...)[0][1]` in the code). -/
def p1FirstNum : List Char → Option (List Char)
  | [] => none
  | c :: rest =>
    if currencyGlyphs.contains c then
      match numTokenAt (rest.dropWhile isWsChar) with
      | some n => some n
      | none => p1FirstNum rest
    else p1FirstNum rest

/-- Python `\w` (restricted to the ASCII range of this development). -/
def isWordChar (c : Char) : Bool := c.isAlphanum || c = '_'

/-- `(\d+<sep>\d{1,2})\b` matched at the head of `l`, with the regex engine's
backtracking on the `\d{1,2}` group before the word boundary. -/
def sepDecMatchAt (sep : Char) (l : List Char) : Option (List Char) :=
  let ds := l.takeWhile Char.isDigit
  if ds.isEmpty then none
  else
    match l.drop ds.length with
    | s :: r2 =>
      if s = sep then
        match r2 with
        | [] => none
        | [d1] => if d1.isDigit then some (ds ++ sep :: [d1]) else none
        | d1 :: d2 :: rest =>
          if d1.isDigit then
            if d2.isDigit then
              match rest with
              | [] => some (ds ++ sep :: [d1, d2])
              | c :: _ =>
                if isWordChar c then none else some (ds ++ sep :: [d1, d2])
            else if isWordChar d2 then none
            else some (ds ++ sep :: [d1])
          else none
      else none
    | [] => none

/-- Leftmost match of `(\d+<sep>\d{1,2})\b` over the whole string. -/
def sepDecFirst (sep : Char) : List Char → Option (List Char)
  | [] => none
  | c :: rest =>
    match sepDecMatchAt sep (c :: rest) with
    | some m => some m
    | none => sepDecFirst sep rest

/-- `re.findall(r'\d+\.?\d*', s)`: all digit runs (with optional fraction) in
order, via a single pass.  `acc` holds the current token reversed; `st` is
0 outside a token, 1 inside the integer part, 2 inside the fraction. -/
def digitRunsAux : List Char → List Char → ℕ → List (List Char)
  | [], acc, st => if st = 0 then [] else [acc.reverse]
  | c :: rest, acc, st =>
    if st = 0 then
      if c.isDigit then digitRunsAux rest [c] 1 else digitRunsAux rest [] 0
    else if st = 1 then
      if c.isDigit then digitRunsAux rest (c :: acc) 1
      else if c = '.' then digitRunsAux rest (c :: acc) 2
      else acc.reverse :: digitRunsAux rest [] 0
    else
      if c.isDigit then digitRunsAux rest (c :: acc) 2
      else acc.reverse :: digitRunsAux rest [] 0

def digitRuns (l : List Char) : List (List Char) := digitRunsAux l [] 0

def currencyCodes : List String := ["USD", "EUR", "GBP", "JPY", "INR"]

/-- A currency code matching case-insensitively at the head of `l`; returns
the original slice (`re` match groups preserve the source text). -/
def currencyCodeAt (l : List Char) : Option (List Char) :=
  match currencyCodes.find? (fun code =>
      startsWithL (code.data.map Char.toLower)
        ((l.take code.data.length).map Char.toLower)) with
  | some code => some (l.take code.data.length)
  | none => none

/-- Leftmost match of `([$€£¥₹]|USD|EUR|GBP|JPY|INR)` with `re.IGNORECASE`,
returning the matched token (used by the currency value extraction). -/
def currencyTokenScan : List Char → Option String
  | [] => none
  | c :: rest =>
    if currencyGlyphs.contains c then some (String.mk [c])
    else
      match currencyCodeAt (c :: rest) with
      | some tok => some (String.mk tok)
      | none => currencyTokenScan rest

/-- `re.search(r'[$€£¥₹]|USD|EUR|GBP', text)` (case-sensitive) viewed as a
Boolean: used by the price locator to prefer matches near a currency mark. -/
def hasCurrencyMark (s : String) : Bool :=
  currencyGlyphs.any (fun g => s.data.contains g)
    || containsSub "USD".data s.data
    || containsSub "EUR".data s.data
    || containsSub "GBP".data s.data

/-! ## The price value extraction of `extract_values_with_selectors` -/

def ratAbs (q : ℚ) : ℚ := if q < 0 then -q else q

/-- The extractor's sanity range `0.01 <= price_value <= 1000000`. -/
def boundOK (v : ℚ) : Bool := decide ((0.01 : ℚ) ≤ v) && decide (v ≤ (1000000 : ℚ))

/-- One iteration of the extractor's pattern loop: first match of the
pattern, comma replaced by a dot, parsed, kept only inside the bound
(a miss, a parse failure or an out-of-range value all continue the loop). -/
def tryPattern (firstMatch : List Char → Option (List Char)) (l : List Char) : Option ℚ :=
  match firstMatch l with
  | none => none
  | some numStr =>
    match pyFloatParse (numStr.map commaToDot) with
    | none => none
    | some v => if boundOK v then some v else none

/-- The `price_patterns` list of the code, in source order. -/
def pricePatternList : List (List Char → Option (List Char)) :=
  [p1FirstNum, sepDecFirst '.', sepDecFirst ',']

def runPricePatterns : List (List Char → Option (List Char)) → List Char → Option ℚ
  | [], _ => none
  | p :: ps, l =>
    match tryPattern p l with
    | some v => some v
    | none => runPricePatterns ps l

/-- The digit-run fallback: first run whose value lies in the bound. -/
def firstRunInBound : List (List Char) → Option ℚ
  | [] => none
  | r :: rs =>
    match pyFloatParse r with
    | some v => if boundOK v then some v else firstRunInBound rs
    | none => firstRunInBound rs

/-- The full price extraction applied to the normalized serialization of the
resolved price node. -/
def extractPriceFromText (s : String) : Option ℚ :=
  match runPricePatterns pricePatternList s.data with
  | some v => some v
  | none => firstRunInBound (digitRuns s.data)

/-- The same cascade as §4.6 of the specification words it: the three
patterns in their fixed order, first accepted match wins, then the
digit-run fallback under the same bound. -/
def specPriceCascade (s : String) : Option ℚ :=
  tryPattern p1FirstNum s.data
    <|> tryPattern (sepDecFirst '.') s.data
    <|> tryPattern (sepDecFirst ',') s.data
    <|> firstRunInBound (digitRuns s.data)

/-! ## Python float formatting used by `_find_price_selector` -/

/-- Models CPython `str(float)` (shortest round-trip repr) for floats whose
value is a short decimal fraction — the only values the engine formats:
minimal decimal expansion, integral values ending in `.0`. -/
def pyFloatStr (q : ℚ) : String :=
  if q = 0 then "0.0"
  else
    let sign := if q < 0 then "-" else ""
    let aq := if q < 0 then -q else q
    match (List.range 40).find? (fun k => (aq * ((10 ^ k : ℕ) : ℚ)).den = 1) with
    | some 0 => sign ++ String.mk (Nat.toDigits 10 aq.num.toNat) ++ ".0"
    | some k =>
      let m := (aq * ((10 ^ k : ℕ) : ℚ)).num.toNat
      let ds0 := Nat.toDigits 10 m
      let ds := List.replicate (k + 1 - ds0.length) '0' ++ ds0
      sign ++ String.mk (ds.take (ds.length - k)) ++ "." ++ String.mk (ds.drop (ds.length - k))
    | none => sign ++ "0.0"

/-- Models `str(int(x))`: truncation toward zero, then decimal digits. -/
def pyIntStr (q : ℚ) : String :=
  if q < 0 then "-" ++ String.mk (Nat.toDigits 10 ((Int.tdiv (-q).num ((-q).den : ℤ)).toNat))
  else String.mk (Nat.toDigits 10 ((Int.tdiv q.num (q.den : ℤ)).toNat))

def ratFloorZ (q : ℚ) : ℤ := Int.fdiv q.num (q.den : ℤ)

/-- Round to the nearest integer, ties to even — what IEEE-754 binary
formatting does for the short decimal values the engine formats. -/
def roundHalfEven (q : ℚ) : ℤ :=
  let f := ratFloorZ q
  let r := q - (f : ℚ)
  if r < 1/2 then f
  else if r > 1/2 then f + 1
  else if f % 2 = 0 then f else f + 1

def rstripChar (c : Char) (l : List Char) : List Char :=
  (l.reverse.dropWhile (fun d => d = c)).reverse

/-- Models `f"{x:.2f}".rstrip('0').rstrip('.')` for short decimal values. -/
def fmtTrim2 (q : ℚ) : String :=
  let cents := roundHalfEven (q * ((100 : ℕ) : ℚ))
  let sign := if cents < 0 then "-" else ""
  let ds0 := Nat.toDigits 10 cents.natAbs
  let ds := List.replicate (3 - ds0.length) '0' ++ ds0
  let formatted :=
    sign ++ String.mk (ds.take (ds.length - 2)) ++ "." ++ String.mk (ds.drop (ds.length - 2))
  String.mk (rstripChar '.' (rstripChar '0' formatted.data))

/-! ## `_find_title_selector` -/

/-- `len(set(title_words) & text_words)` where `text_words` is the set of
significant (length > 2) words of `text`: the number of distinct significant
title words shared with `text`. -/
def sharedWordCount (tw : List (List Char)) (text : String) : ℕ :=
  let textWords := (splitWs text.data).filter (fun w => w.length > 2)
  ((tw.dedup).filter (fun w => textWords.contains w)).length

/-- Strategy 1 inner loop: for each heading, first the containment test,
then the word-overlap test, each returning the element's `getpath` when it
is available. -/
def scanTier1 (doc : HTree) (tn : String) (tw : List (List Char)) :
    List (List ℕ) → Option AbsPath
  | [] => none
  | a :: rest =>
    let text := lowerStr (normalizeText (serializeAt doc a))
    (if containsSub tn.data text.data || containsSub text.data tn.data then getpathAbs doc a
     else none)
    <|> (if decide (3 ≤ tw.length) && decide (3 ≤ sharedWordCount tw text) then getpathAbs doc a
         else none)
    <|> scanTier1 doc tn tw rest

/-- The headings visited by strategy 1: levels `h1`…`h4`, document order
within each level. -/
def headingAddrs (doc : HTree) : List (List ℕ) :=
  ["h1", "h2", "h3", "h4"].flatMap (fun tg => tagAddrs doc tg)

/-- Strategy 1 of `_find_title_selector` (lines 154–168). -/
def find_title_tier1 (doc : HTree) (title : String) : Option AbsPath :=
  let tn := normalizeText (lowerStr title)
  let tw := (splitWs tn.data).filter (fun w => w.length > 2)
  scanTier1 doc tn tw (headingAddrs doc)

def scanContain (doc : HTree) (tn : String) : List (List ℕ) → Option AbsPath
  | [] => none
  | a :: rest =>
    let text := lowerStr (normalizeText (serializeAt doc a))
    (if containsSub tn.data text.data || containsSub text.data tn.data then getpathAbs doc a
     else none)
    <|> scanContain doc tn rest

/-- Strategy 2: elements whose class, then id, mentions product/title/name. -/
def titleTier2 (doc : HTree) (tn : String) : Option AbsPath :=
  scanContain doc tn (classIdAddrs doc "class" ["product", "title", "name"])
    <|> scanContain doc tn (classIdAddrs doc "id" ["product", "title", "name"])

/-- The apostrophe character, which breaks the single-quoted XPath literals
the code builds by f-string interpolation (the raised `XPathError` is
swallowed by the bare `except`). -/
def apos : Char := Char.ofNat 39

/-- Strategy 3: first element whose first direct text node, ASCII-folded by
`translate`, contains the first 30 characters of the normalized target. -/
def titleTier3 (doc : HTree) (tn : String) : Option AbsPath :=
  let key := tn.data.take 30
  if key.contains apos then none
  else
    ((subAddrs doc).find? (fun a =>
        containsSub key ((lowerStr (firstTextAt doc a)).data))).bind (getpathAbs doc)

/-- `_find_title_selector`. -/
def find_title_selector (doc : HTree) (title : String) : Option AbsPath :=
  if title = "" then none
  else
    let tn := normalizeText (lowerStr title)
    let tw := (splitWs tn.data).filter (fun w => w.length > 2)
    if tw = [] then none
    else find_title_tier1 doc title <|> titleTier2 doc tn <|> titleTier3 doc tn

/-! ## `_find_price_selector` -/

/-- `price_str in text or price_formatted in text or price_int in text`. -/
def priceRepMatch (reps : List String) (text : String) : Bool :=
  reps.any (fun r => containsSub r.data text.data)

def scanPriceClassId (doc : HTree) (reps : List String) : List (List ℕ) → Option AbsPath
  | [] => none
  | a :: rest =>
    (if priceRepMatch reps (normalizeText (serializeAt doc a)) then getpathAbs doc a else none)
      <|> scanPriceClassId doc reps rest

def scanPreferCurrency (doc : HTree) : List (List ℕ) → Option AbsPath
  | [] => none
  | a :: rest =>
    (if hasCurrencyMark (normalizeText (serializeAt doc a)) then getpathAbs doc a else none)
      <|> scanPreferCurrency doc rest

/-- Strategy 2: for each textual representation, the whole-document
`//*[contains(text(), repr)]` scan, preferring a match whose serialization
shows a currency mark, else the first match. -/
def priceStrategy2 (doc : HTree) : List String → Option AbsPath
  | [] => none
  | pv :: rest =>
    let ms := (subAddrs doc).filter (fun a => containsSub pv.data (firstTextAt doc a).data)
    (match ms with
     | [] => none
     | _ :: _ => scanPreferCurrency doc ms <|> ms.head?.bind (getpathAbs doc))
    <|> priceStrategy2 doc rest

/-- `_find_price_selector`. -/
def find_price_selector (doc : HTree) (price : Option PyVal) : Option AbsPath :=
  match price with
  | none => none
  | some v =>
    let price_value := extract_numeric_value v
    if price_value = 0 then none
    else
      let price_str := pyFloatStr price_value
      let price_int := pyIntStr price_value
      let price_formatted := fmtTrim2 price_value
      (scanPriceClassId doc [price_str, price_formatted, price_int]
          (classIdAddrs doc "class" ["price", "cost", "amount"])
        <|> scanPriceClassId doc [price_str, price_formatted, price_int]
          (classIdAddrs doc "id" ["price", "cost", "amount"]))
      <|> priceStrategy2 doc [price_str, price_formatted, price_int]

/-! ## `_find_currency_selector` -/

/-- The `currency_symbols` table, in source (= dict insertion) order. -/
def currencySymbolTable : List (String × List String) :=
  [("USD", ["$", "usd", "dollar"]),
   ("EUR", ["€", "eur", "euro"]),
   ("GBP", ["£", "gbp", "pound"]),
   ("JPY", ["¥", "jpy", "yen"]),
   ("INR", ["₹", "inr", "rupee"])]

/-- `search_terms`: the cleaned input plus the aliases of the first matching
table row. -/
def searchTermsFor (cc : String) : List String :=
  cc ::
    (match currencySymbolTable.find? (fun p => cc = p.1 || p.2.contains cc) with
     | some p => p.2
     | none => [])

/-- `any(term.upper() in text for term in search_terms)` where `text` is
already upper-cased. -/
def termHit (terms : List String) (textUpper : String) : Bool :=
  terms.any (fun t => containsSub (upperStr t).data textUpper.data)

/-- Models `_get_xpath_from_element(selector, element)` when `element` is a
parsel `SelectorList` — as happens for the parent and the sibling lookups in
`_find_currency_selector` (`price_elem.xpath('..')` and the
`preceding-sibling`/`following-sibling` queries all return `SelectorList`s).
`SelectorList` is a plain `list` subclass with no `root` attribute, so the
`hasattr(element, 'root')` guard fails and the function returns `None`. -/
def getXPathOfSelectorList (_doc : HTree) (_addrs : List (List ℕ)) : Option AbsPath := none

/-- Strategy 1: the price node itself, its parent, its nearest preceding and
following element siblings, in that order (only a hit on the node itself can
produce a path — see `getXPathOfSelectorList`). -/
def currencyStrategy1 (doc : HTree) (terms : List String) (price_xpath : AbsPath) :
    Option AbsPath :=
  match resolveAbs doc price_xpath with
  | [] => none
  | a :: rest =>
    if termHit terms (upperStr (normalizeText (serializeAt doc a))) then some price_xpath
    else
      let pres := a :: rest
      let parents := pres.filterMap (fun x => if x.isEmpty then none else some x.dropLast)
      let precs := pres.filterMap precedingSiblingAddr
      let folls := pres.filterMap (followingSiblingAddr doc)
      (match parents with
       | [] => none
       | pa :: _ =>
         if termHit terms (upperStr (normalizeText (serializeAt doc pa))) then
           getXPathOfSelectorList doc parents
         else none)
      <|> (match precs with
           | [] => none
           | sa :: _ =>
             if termHit terms (upperStr (normalizeText (serializeAt doc sa))) then
               getXPathOfSelectorList doc precs
             else none)
      <|> (match folls with
           | [] => none
           | sa :: _ =>
             if termHit terms (upperStr (normalizeText (serializeAt doc sa))) then
               getXPathOfSelectorList doc folls
             else none)

def scanTermText (doc : HTree) (terms : List String) : List (List ℕ) → Option AbsPath
  | [] => none
  | a :: rest =>
    (if termHit terms (upperStr (normalizeText (serializeAt doc a))) then getpathAbs doc a
     else none)
    <|> scanTermText doc terms rest

/-- Strategy 2: elements whose class, then id, mentions price/currency. -/
def currencyStrategy2 (doc : HTree) (terms : List String) : Option AbsPath :=
  scanTermText doc terms (classIdAddrs doc "class" ["price", "currency"])
    <|> scanTermText doc terms (classIdAddrs doc "id" ["price", "currency"])

/-- Strategy 3: per search term, the whole-document text scan — an exact
`contains(text(), term)` for one-character terms, a `translate`-folded
case-insensitive scan for longer ones.  A term containing an apostrophe
breaks the interpolated XPath; the raised error is swallowed and the loop
continues. -/
def currencyStrategy3 (doc : HTree) : List String → Option AbsPath
  | [] => none
  | term :: rest =>
    (if term.data.contains apos then none
     else if term.data.length = 1 then
       ((subAddrs doc).find? (fun a =>
           containsSub term.data (firstTextAt doc a).data)).bind (getpathAbs doc)
     else
       ((subAddrs doc).find? (fun a =>
           containsSub (lowerStr term).data ((lowerStr (firstTextAt doc a)).data))).bind
         (getpathAbs doc))
    <|> currencyStrategy3 doc rest

/-- `_find_currency_selector`. -/
def find_currency_selector (doc : HTree) (currency : String) (price_xpath : Option AbsPath) :
    Option AbsPath :=
  if currency = "" then none
  else
    let currency_clean := upperStr (stripWs currency)
    let terms := searchTermsFor currency_clean
    (match price_xpath with
     | some ps => currencyStrategy1 doc terms ps
     | none => none)
    <|> currencyStrategy2 doc terms
    <|> currencyStrategy3 doc terms

/-! ## `extract_values_with_selectors` -/

structure SelectorSet where
  title_xpath : Option AbsPath
  price_xpath : Option AbsPath
  currency_xpath : Option AbsPath
deriving DecidableEq

structure ExtractedValues where
  title : Option String
  price : Option ℚ
  currency : Option String
deriving DecidableEq

def joinWithSpace : List String → String
  | [] => ""
  | [s] => s
  | s :: rest => s ++ " " ++ joinWithSpace rest

/-- `extract_values_with_selectors`: re-read each field independently from
its stored path (`none` for the whole record when the HTML did not parse —
the outer `try` of the function). -/
def extract_values_with_selectors (doc? : Option HTree) (sel : SelectorSet) :
    ExtractedValues :=
  match doc? with
  | none => ⟨none, none, none⟩
  | some doc =>
    let titleV : Option String :=
      match sel.title_xpath with
      | none => none
      | some steps =>
        match resolveAbs doc steps with
        | [] => none
        | a :: rest =>
          let txts := (a :: rest).flatMap (fun x => textsAt doc x)
          match txts with
          | [] => some (normalizeText (serializeAt doc a))
          | _ :: _ => some (normalizeText (joinWithSpace txts))
    let priceV : Option ℚ :=
      match sel.price_xpath with
      | none => none
      | some steps =>
        match resolveAbs doc steps with
        | [] => none
        | a :: _ => extractPriceFromText (normalizeText (serializeAt doc a))
    let currencyV : Option String :=
      match sel.currency_xpath with
      | none => none
      | some steps =>
        match resolveAbs doc steps with
        | [] => none
        | a :: _ =>
          let ctext := normalizeText (serializeAt doc a)
          match currencyTokenScan ctext.data with
          | some tok => some tok
          | none => some (stripWs ctext)
    ⟨titleV, priceV, currencyV⟩

/-! ## `compare_selectors_with_agentql` -/

/-- The values asserted by the external extraction service (`None` for an
absent field). -/
structure AgentVals where
  title : Option String
  price : Option PyVal
  currency : Option String
deriving DecidableEq

structure FieldMatches where
  title : Bool
  price : Bool
  currency : Bool
deriving DecidableEq

structure CompareResult where
  xpath_values : ExtractedValues
  agentql_values : AgentVals
  per_field_match : FieldMatches
  all_match : Bool

/-- Python truthiness of an optional string. -/
def optTruthy : Option String → Bool
  | none => false
  | some s => !s.data.isEmpty

/-- `compare_selectors_with_agentql`. -/
def compare_selectors_with_agentql (doc? : Option HTree) (sel : SelectorSet)
    (agentql_values : AgentVals) : CompareResult :=
  let xpath_values := extract_values_with_selectors doc? sel
  let aT : Option String :=
    match agentql_values.title with
    | some s => if s.data.isEmpty then none else some (normalizeText s)
    | none => none
  let aP : Option ℚ :=
    match agentql_values.price with
    | some v => some (extract_numeric_value v)
    | none => none
  let aC : Option String :=
    match agentql_values.currency with
    | some s => if s.data.isEmpty then none else some (stripWs s)
    | none => none
  let xT : Option String := xpath_values.title
  let xP : Option ℚ :=
    match xpath_values.price with
    | some q => if q = 0 then none else some q
    | none => none
  let xC : Option String :=
    match xpath_values.currency with
    | some s => if s.data.isEmpty then none else some (stripWs s)
    | none => none
  let mT : Bool :=
    if optTruthy aT && optTruthy xT then
      let al := lowerStr (aT.getD "")
      let xl := lowerStr (xT.getD "")
      decide (al = xl) || containsSub al.data xl.data || containsSub xl.data al.data
    else false
  let mP : Bool :=
    match aP, xP with
    | some a, some x => decide (ratAbs (a - x) < (0.01 : ℚ))
    | _, _ => false
  let mC : Bool :=
    if optTruthy aC && optTruthy xC then decide (upperStr (aC.getD "") = upperStr (xC.getD ""))
    else false
  ⟨xpath_values, agentql_values, ⟨mT, mP, mC⟩, mT && mP && mC⟩

/-! ## `extract_selectors` -/

/-- `extract_selectors`: synthesize the three selectors; the all-`none`
record on a parse failure (the function's `except` branch). -/
def extract_selectors (doc? : Option HTree) (title : String) (price : Option PyVal)
    (currency : String) : SelectorSet :=
  match doc? with
  | none => ⟨none, none, none⟩
  | some doc =>
    let title_xpath := find_title_selector doc title
    let price_xpath := find_price_selector doc price
    let currency_xpath := find_currency_selector doc currency price_xpath
    ⟨title_xpath, price_xpath, currency_xpath⟩

/-! ## Claim-side predicates, list-level views, and concrete documents -/

/-- The tier-1 heading test exactly as the code computes it: the comparison
text is the normalized, lower-cased *serialization* of the heading element
(`_normalize_text(elem.get()).lower()` — outer HTML, tags included):
containment in either direction (equality listed for readability), or at
least three significant title words shared with the words of that
serialization. -/
def titleTier1Match (doc : HTree) (title : String) (a : List ℕ) : Bool :=
  let tn := normalizeText (lowerStr title)
  let tw := (splitWs tn.data).filter (fun w => w.length > 2)
  let text := lowerStr (normalizeText (serializeAt doc a))
  decide (tn = text) || containsSub tn.data text.data || containsSub text.data tn.data
    || (decide (3 ≤ tw.length) && decide (3 ≤ sharedWordCount tw text))

/-- The heading's *text content* (all descendant text, normalized) — the
quantity the specification's tier-1 rule speaks about. -/
def specHeadingText (doc : HTree) (a : List ℕ) : String :=
  normalizeText (joinWithSpace (textsAt doc a))

/-- The tier-1 heading test as the specification words it: the same matching
rule, but applied to the normalized heading *text* instead of the
serialization. -/
def specTitleTier1Match (doc : HTree) (title : String) (a : List ℕ) : Bool :=
  let tn := normalizeText (lowerStr title)
  let tw := (splitWs tn.data).filter (fun w => w.length > 2)
  let text := lowerStr (specHeadingText doc a)
  decide (tn = text) || containsSub tn.data text.data || containsSub text.data tn.data
    || (decide (3 ≤ tw.length) && decide (3 ≤ sharedWordCount tw text))

/-- List-level view of `subAddrsF` (for reasoning). -/
def subAddrsL : List HTree → ℕ → List (List ℕ)
  | [], _ => []
  | c :: rest, i => (subAddrs c).map (fun q => i :: q) ++ subAddrsL rest (i + 1)

/-- The element children of a forest. -/
def elemListF (cs : HForest) : List HTree := cs.toList.filter HTree.isElem

/-! ### Concrete documents for the claims -/

/-- `Selector(text="<h1>Wireless Mouse</h1><span class=\x22price\x22>$19.99</span>")`:
lxml wraps the fragment in `html`/`body`. -/
def docC1 : HTree :=
  .elem "html" [] (.ofList [.elem "body" [] (.ofList [
    .elem "h1" [] (.ofList [.text "Wireless Mouse"]),
    .elem "span" [("class", "price")] (.ofList [.text "$19.99"])])])

def selsC1 : SelectorSet :=
  extract_selectors (some docC1) "Wireless Mouse" (some (.num (19.99 : ℚ))) "USD"

def avC1 : AgentVals := ⟨some "Wireless Mouse", some (.num (19.99 : ℚ)), some "USD"⟩

/-- A document whose single `h1` has text `wireless mouse`. -/
def docC2 : HTree :=
  .elem "html" [] (.ofList [.elem "body" [] (.ofList [
    .elem "h1" [] (.ofList [.text "wireless mouse"])])])

/-- The document of the C5 scenario: a `€`-bearing decoy paragraph in an
earlier subtree, then the price span whose immediate following sibling
contains `€`. -/
def docC5 : HTree :=
  .elem "html" [] (.ofList [.elem "body" [] (.ofList [
    .elem "div" [] (.ofList [.elem "p" [] (.ofList [.text "Price in € zone"])]),
    .elem "div" [] (.ofList [
      .elem "span" [("class", "price")] (.ofList [.text "19.99"]),
      .elem "span" [] (.ofList [.text "€"])])])])

/-- A document whose price node's text is `Now $45.00 (was $60.00)`. -/
def docC6 : HTree :=
  .elem "html" [] (.ofList [.elem "body" [] (.ofList [
    .elem "span" [] (.ofList [.text "Now $45.00 (was $60.00)"])])])

def selsC6 : SelectorSet := ⟨none, some [("html", none), ("body", none), ("span", none)], none⟩

/-- A document containing a heading whose text exactly equals `4K TV`. -/
def docC9 : HTree :=
  .elem "html" [] (.ofList [.elem "body" [] (.ofList [
    .elem "h1" [] (.ofList [.text "4K TV"])])])

/-- The parse of an (essentially) empty page: a bare `html` element. -/
def emptyDoc : HTree := .elem "html" [] .nil

/-! ## Lemmas: words and case folding -/

theorem toNat_ofNat_of_small {m : ℕ} (h : m < 55296) : (Char.ofNat m).toNat = m := by
  rw [Char.ofNat, dif_pos (Or.inl (show m < 0xd800 from h))]
  rfl

theorem isWhitespace_false_of_ge (c : Char) (h : 65 ≤ c.toNat) :
    Char.isWhitespace c = false := by
  have t1 : c ≠ ' ' := fun e => by rw [e] at h; exact absurd h (by decide)
  have t2 : c ≠ '\t' := fun e => by rw [e] at h; exact absurd h (by decide)
  have t3 : c ≠ '\r' := fun e => by rw [e] at h; exact absurd h (by decide)
  have t4 : c ≠ '\n' := fun e => by rw [e] at h; exact absurd h (by decide)
  simp [Char.isWhitespace, t1, t2, t3, t4]

/-- ASCII lower-casing never creates or destroys whitespace. -/
theorem isWsChar_toLower (c : Char) : isWsChar c.toLower = isWsChar c := by
  unfold isWsChar Char.toLower
  by_cases h : c.toNat ≥ 65 ∧ c.toNat ≤ 90
  · rw [if_pos h, isWhitespace_false_of_ge c h.1]
    apply isWhitespace_false_of_ge
    rw [toNat_ofNat_of_small (by omega)]
    omega
  · rw [if_neg h]

theorem splitWsAux_map (f : Char → Char) (hf : ∀ c, isWsChar (f c) = isWsChar c) :
    ∀ (l acc : List Char),
      splitWsAux (l.map f) (acc.map f) = (splitWsAux l acc).map (List.map f)
  | [], acc => by
    by_cases h : acc = []
    · subst h; simp [splitWsAux]
    · rw [List.map_nil, splitWsAux, splitWsAux, if_neg h, if_neg (by simpa using h)]
      simp
  | c :: rest, acc => by
    rw [List.map_cons, splitWsAux, splitWsAux, hf c]
    by_cases hw : isWsChar c
    · rw [if_pos hw, if_pos hw]
      by_cases h : acc = []
      · subst h
        rw [if_pos rfl, if_pos (by simp)]
        simpa using splitWsAux_map f hf rest []
      · rw [if_neg h, if_neg (by simpa using h), List.map_cons, List.map_reverse]
        congr 1
        simpa using splitWsAux_map f hf rest []
    · rw [if_neg hw, if_neg hw]
      have := splitWsAux_map f hf rest (c :: acc)
      simpa using this

theorem splitWs_map (f : Char → Char) (hf : ∀ c, isWsChar (f c) = isWsChar c)
    (l : List Char) : splitWs (l.map f) = (splitWs l).map (List.map f) := by
  have := splitWsAux_map f hf l []
  simpa [splitWs] using this

theorem splitWsAux_words :
    ∀ (l acc : List Char), (∀ c ∈ acc, isWsChar c = false) →
      ∀ w ∈ splitWsAux l acc, w ≠ [] ∧ ∀ c ∈ w, isWsChar c = false
  | [], acc => by
    intro hacc w hw
    rw [splitWsAux] at hw
    by_cases h : acc = []
    · simp [h] at hw
    · rw [if_neg h] at hw
      simp only [List.mem_singleton] at hw
      subst hw
      refine ⟨by simpa using h, ?_⟩
      intro c hc
      exact hacc c (by simpa using hc)
  | c :: rest, acc => by
    intro hacc w hw
    rw [splitWsAux] at hw
    by_cases hws : isWsChar c
    · rw [if_pos hws] at hw
      by_cases h : acc = []
      · rw [if_pos h] at hw
        exact splitWsAux_words rest [] (by simp) w hw
      · rw [if_neg h] at hw
        rcases List.mem_cons.mp hw with h1 | h1
        · subst h1
          refine ⟨by simpa using h, ?_⟩
          intro d hd
          exact hacc d (by simpa using hd)
        · exact splitWsAux_words rest [] (by simp) w h1
    · rw [if_neg hws] at hw
      refine splitWsAux_words rest (c :: acc) ?_ w hw
      intro d hd
      rcases List.mem_cons.mp hd with h1 | h1
      · subst h1; simpa using hws
      · exact hacc d h1

theorem splitWs_words (l : List Char) :
    ∀ w ∈ splitWs l, w ≠ [] ∧ ∀ c ∈ w, isWsChar c = false :=
  splitWsAux_words l [] (by simp)

theorem splitWsAux_append_word (w : List Char) (hw : ∀ c ∈ w, isWsChar c = false) :
    ∀ (l acc : List Char), splitWsAux (w ++ l) acc = splitWsAux l (w.reverse ++ acc) := by
  induction w with
  | nil => intro l acc; simp
  | cons c w ih =>
    intro l acc
    have hc : isWsChar c = false := hw c (by simp)
    have hw' : ∀ d ∈ w, isWsChar d = false := fun d hd => hw d (by simp [hd])
    rw [List.cons_append, splitWsAux, if_neg (by simp [hc]), ih hw' l (c :: acc)]
    simp

/-- Re-splitting a single-space join of nonempty whitespace-free words gives
back the words: `normalize` changes no word. -/
theorem splitWs_joinSpace (ws : List (List Char))
    (h : ∀ w ∈ ws, w ≠ [] ∧ ∀ c ∈ w, isWsChar c = false) :
    splitWs (joinSpace ws) = ws := by
  induction ws with
  | nil => rfl
  | cons w ws ih =>
    rcases h w (by simp) with ⟨hne, hnw⟩
    have h' : ∀ u ∈ ws, u ≠ [] ∧ ∀ c ∈ u, isWsChar c = false :=
      fun u hu => h u (by simp [hu])
    cases ws with
    | nil =>
      show splitWsAux w [] = [w]
      have h2 := splitWsAux_append_word w hnw [] []
      rw [List.append_nil] at h2
      rw [h2, splitWsAux, if_neg (by simpa using hne)]
      simp
    | cons w2 ws2 =>
      show splitWsAux (w ++ ' ' :: joinSpace (w2 :: ws2)) [] = w :: w2 :: ws2
      rw [splitWsAux_append_word w hnw, splitWsAux, if_pos (by decide),
        if_neg (by simpa using hne)]
      simpa using ih h'

/-- The words of a normalized string are the words of the original string. -/
theorem splitWs_normalize (l : List Char) :
    splitWs (normalizeText (String.mk l)).data = splitWs l := by
  show splitWs (joinSpace (splitWs l)) = splitWs l
  exact splitWs_joinSpace (splitWs l) (splitWs_words l)

theorem startsWithL_refl (l : List Char) : startsWithL l l = true := by
  induction l with
  | nil => rfl
  | cons c t ih => simp [startsWithL, ih]

theorem containsSub_refl (l : List Char) : containsSub l l = true := by
  cases l with
  | nil => rfl
  | cons c t => simp [containsSub, startsWithL_refl]

/-! ## Lemmas: the numeric coercion -/

theorem splitOnDot_ne_nil (l : List Char) : splitOnDot l ≠ [] := by
  cases l with
  | nil => simp [splitOnDot]
  | cons c rest =>
    rw [splitOnDot]
    rcases h : splitOnDot rest with _ | ⟨p, ps⟩
    · simp
    · by_cases hc : c = '.' <;> simp [hc]

theorem splitOnDot_no_dot (l : List Char) (h : ∀ c ∈ l, ¬(c = '.')) :
    splitOnDot l = [l] := by
  induction l with
  | nil => rfl
  | cons c rest ih =>
    have h1 : splitOnDot rest = [rest] := ih (fun d hd => h d (by simp [hd]))
    rw [splitOnDot, h1]
    simp [h c (by simp)]

theorem splitOnDot_append (xs ys : List Char) :
    splitOnDot (xs ++ '.' :: ys) = splitOnDot xs ++ splitOnDot ys := by
  induction xs with
  | nil =>
    rw [List.nil_append]
    rcases h : splitOnDot ys with _ | ⟨p, ps⟩
    · exact absurd h (splitOnDot_ne_nil ys)
    · simp [splitOnDot, h]
  | cons c xs ih =>
    rw [List.cons_append, splitOnDot, ih, splitOnDot]
    rcases h : splitOnDot xs with _ | ⟨p, ps⟩
    · exact absurd h (splitOnDot_ne_nil xs)
    · by_cases hc : c = '.' <;> simp [hc]

theorem joinParts_splitOnDot (l : List Char) :
    (splitOnDot l).foldr (· ++ ·) [] = l.filter (fun c => c ≠ '.') := by
  induction l with
  | nil => rfl
  | cons c rest ih =>
    rcases h : splitOnDot rest with _ | ⟨p, ps⟩
    · exact absurd h (splitOnDot_ne_nil rest)
    · rw [splitOnDot, h]
      rw [h] at ih
      by_cases hc : c = '.'
      · subst hc
        simpa using ih
      · simpa [hc] using ih

theorem length_splitOnDot (l : List Char) :
    (splitOnDot l).length = l.count '.' + 1 := by
  induction l with
  | nil => rfl
  | cons c rest ih =>
    rcases h : splitOnDot rest with _ | ⟨p, ps⟩
    · exact absurd h (splitOnDot_ne_nil rest)
    · rw [splitOnDot, h]
      rw [h] at ih
      by_cases hc : c = '.'
      · subst hc
        simp only [List.count_cons, if_pos rfl] at *
        simp at ih ⊢
        omega
      · simp only [List.count_cons] at *
        simp [hc] at ih ⊢
        omega

theorem lastSepSplit_none (l : List Char) :
    lastSepSplit l = none → ∀ c ∈ l, isSep c = false := by
  induction l with
  | nil => intro _ c hc; cases hc
  | cons c rest ih =>
    intro h d hd
    rw [lastSepSplit] at h
    rcases h2 : lastSepSplit rest with _ | ⟨b, a⟩ <;> rw [h2] at h
    · rcases List.mem_cons.mp hd with h1 | h1
      · subst h1
        by_cases hs : isSep d = true
        · rw [if_pos hs] at h; cases h
        · simpa using hs
      · exact ih h2 d h1
    · cases h

theorem isSep_iff {c : Char} : isSep c = true ↔ (c = ',' ∨ c = '.') := by
  simp [isSep]

theorem lastSepSplit_some (l : List Char) :
    ∀ b a, lastSepSplit l = some (b, a) →
      ∃ c, isSep c = true ∧ l = b ++ c :: a ∧ ∀ d ∈ a, isSep d = false := by
  induction l with
  | nil => intro b a h; simp [lastSepSplit] at h
  | cons c rest ih =>
    intro b a h
    rw [lastSepSplit] at h
    rcases h2 : lastSepSplit rest with _ | ⟨b', a'⟩ <;> rw [h2] at h
    · by_cases hs : isSep c = true
      · rw [if_pos hs] at h
        simp only [Option.some.injEq, Prod.mk.injEq] at h
        obtain ⟨hb, ha⟩ := h
        subst hb; subst ha
        exact ⟨c, hs, by simp, lastSepSplit_none rest h2⟩
      · rw [if_neg hs] at h; cases h
    · simp only [Option.some.injEq, Prod.mk.injEq] at h
      obtain ⟨hb, ha⟩ := h
      subst hb; subst ha
      obtain ⟨c0, hc0, hrest, hafree⟩ := ih b' a' h2
      exact ⟨c0, hc0, by simp [hrest], hafree⟩

theorem keepNumeric_classes (l : List Char) :
    ∀ c ∈ keepNumeric l, c.isDigit = true ∨ isSep c = true := by
  intro c hc
  have h2 := (List.mem_filter.mp hc).2
  simp only [Bool.or_eq_true, decide_eq_true_eq] at h2
  rcases h2 with (h | h) | h
  · exact Or.inl h
  · exact Or.inr (isSep_iff.mpr (Or.inl h))
  · exact Or.inr (isSep_iff.mpr (Or.inr h))

theorem isSep_not_digit {c : Char} (h : isSep c = true) : c.isDigit = false := by
  rcases isSep_iff.mp h with e | e <;> (subst e; decide)

theorem digit_not_sep {c : Char} (h : c.isDigit = true) : isSep c = false := by
  by_contra hne
  have : isSep c = true := by simpa using hne
  rw [isSep_not_digit this] at h
  cases h

theorem commaToDot_digit {c : Char} (h : c.isDigit = true) : commaToDot c = c := by
  rw [commaToDot, if_neg]
  intro e; subst e; cases h

theorem commaToDot_sep {c : Char} (h : isSep c = true) : commaToDot c = '.' := by
  rcases isSep_iff.mp h with e | e <;> (subst e; rfl)

theorem digit_ne_dot {c : Char} (h : c.isDigit = true) : ¬(c = '.') := by
  intro e; subst e; cases h

theorem map_commaToDot_digits {l : List Char} (h : ∀ c ∈ l, c.isDigit = true) :
    l.map commaToDot = l := by
  induction l with
  | nil => rfl
  | cons c rest ih =>
    rw [List.map_cons, commaToDot_digit (h c (by simp)),
      ih (fun d hd => h d (by simp [hd]))]

theorem filter_digits_eq_self {l : List Char} (h : ∀ c ∈ l, c.isDigit = true) :
    l.filter Char.isDigit = l :=
  List.filter_eq_self.mpr (fun c hc => h c hc)

theorem any_digit_of_all {l : List Char} (h : ∀ c ∈ l, c.isDigit = true) :
    l.any Char.isDigit = !l.isEmpty := by
  cases l with
  | nil => rfl
  | cons c rest => simp [List.any_cons, h c (by simp)]

theorem count_dot_digits {l : List Char} (h : ∀ c ∈ l, c.isDigit = true) :
    l.count '.' = 0 := by
  rw [List.count_eq_zero]
  intro hm
  exact digit_ne_dot (h '.' hm) rfl

theorem takeWhile_ne_dot (D a : List Char) (hD : ∀ c ∈ D, ¬(c = '.')) :
    (D ++ '.' :: a).takeWhile (fun c => c ≠ '.') = D := by
  induction D with
  | nil => simp [List.takeWhile_cons]
  | cons c rest ih =>
    rw [List.cons_append, List.takeWhile_cons, if_pos (by simpa using hD c (by simp)),
      ih (fun d hd => hD d (by simp [hd]))]

theorem dropWhile_ne_dot (D a : List Char) (hD : ∀ c ∈ D, ¬(c = '.')) :
    (D ++ '.' :: a).dropWhile (fun c => c ≠ '.') = '.' :: a := by
  induction D with
  | nil => simp [List.dropWhile_cons]
  | cons c rest ih =>
    rw [List.cons_append, List.dropWhile_cons, if_pos (by simpa using hD c (by simp)),
      ih (fun d hd => hD d (by simp [hd]))]

/-- `float` on a digit string with a single interior dot. -/
theorem pyFloatParse_digits_dot (D a : List Char)
    (hD : ∀ c ∈ D, c.isDigit = true) (ha : ∀ c ∈ a, c.isDigit = true) :
    pyFloatParse (D ++ '.' :: a)
      = if D ++ a = [] then none
        else some ((natOfDigits D : ℚ) + (natOfDigits a : ℚ) / (10 : ℚ) ^ a.length) := by
  have hDd : ∀ c ∈ D, ¬(c = '.') := fun c hc => digit_ne_dot (hD c hc)
  have hcnt : (D ++ '.' :: a).count '.' = 1 := by
    rw [List.count_append, count_dot_digits hD, List.count_cons]
    rw [count_dot_digits ha]
    simp
  have hany : (D ++ '.' :: a).any Char.isDigit = !(D ++ a).isEmpty := by
    rw [List.any_append, List.any_cons]
    rw [any_digit_of_all hD, any_digit_of_all ha]
    cases D <;> cases a <;> simp
  by_cases hz : D ++ a = []
  · obtain ⟨hD0, ha0⟩ := List.append_eq_nil.mp hz
    subst hD0; subst ha0
    rfl
  · rw [pyFloatParse, if_pos ⟨by omega, by rw [hany]; simpa using hz⟩]
    rw [takeWhile_ne_dot D a hDd, dropWhile_ne_dot D a hDd]
    simp [hz]

/-- `float` on a pure digit string. -/
theorem pyFloatParse_digits (D : List Char) (hD : ∀ c ∈ D, c.isDigit = true) :
    pyFloatParse D = if D = [] then none else some (natOfDigits D : ℚ) := by
  by_cases hz : D = []
  · subst hz; rfl
  · rw [pyFloatParse, if_pos ⟨by rw [count_dot_digits hD]; omega,
      by rw [any_digit_of_all hD]; simpa using hz⟩]
    have hDd : ∀ c ∈ D, ¬(c = '.') := fun c hc => digit_ne_dot (hD c hc)
    rw [List.takeWhile_eq_self_iff.mpr (fun c hc => by simpa using hDd c hc)]
    rw [List.dropWhile_eq_nil_iff.mpr (fun c hc => by simpa using hDd c hc)]
    simp [hz, natOfDigits]

theorem filter_map_commaToDot {b : List Char}
    (hb : ∀ c ∈ b, c.isDigit = true ∨ isSep c = true) :
    (b.map commaToDot).filter (fun c => c ≠ '.') = b.filter Char.isDigit := by
  induction b with
  | nil => rfl
  | cons c rest ih =>
    have ih' := ih (fun d hd => hb d (by simp [hd]))
    rcases hb c (by simp) with hd | hs
    · rw [List.map_cons, commaToDot_digit hd]
      rw [List.filter_cons, List.filter_cons, if_pos (by simpa using digit_ne_dot hd),
        if_pos hd, ih']
    · rw [List.map_cons, commaToDot_sep hs]
      rw [List.filter_cons, List.filter_cons, if_neg (by simp), if_neg (by
        simp [isSep_not_digit hs]), ih']

/-- Core of the coercion equivalence, stated over the already-stripped
character list. -/
theorem coerce_core (clean : List Char)
    (hcls : ∀ c ∈ clean, c.isDigit = true ∨ isSep c = true) :
    (match pyFloatParse (pyDotNormalize (clean.map commaToDot)) with
     | some q => q
     | none => (0 : ℚ))
      = (if clean.filter Char.isDigit = [] then (0 : ℚ)
         else match lastSepSplit clean with
           | none => (natOfDigits clean : ℚ)
           | some (b, a) =>
             (natOfDigits (b.filter Char.isDigit) : ℚ)
               + (natOfDigits a : ℚ) / (10 : ℚ) ^ a.length) := by
  rcases hsep : lastSepSplit clean with _ | ⟨b, a⟩
  · -- no separator at all: `clean` is all digits
    have hall : ∀ c ∈ clean, c.isDigit = true := by
      intro c hc
      rcases hcls c hc with h | h
      · exact h
      · rw [lastSepSplit_none clean hsep c hc] at h; cases h
    have hnod : ∀ c ∈ clean, ¬(c = '.') := fun c hc => digit_ne_dot (hall c hc)
    have hnorm : pyDotNormalize clean = clean := by
      rw [pyDotNormalize, splitOnDot_no_dot clean hnod]
      simp
    rw [map_commaToDot_digits hall, hnorm, pyFloatParse_digits clean hall,
      filter_digits_eq_self hall]
    by_cases hz : clean = [] <;> simp [hz]
  · obtain ⟨c0, hc0, hdecomp, hafree⟩ := lastSepSplit_some clean b a hsep
    have hbcls : ∀ c ∈ b, c.isDigit = true ∨ isSep c = true := by
      intro c hc; exact hcls c (by rw [hdecomp]; simp [hc])
    have hadig : ∀ c ∈ a, c.isDigit = true := by
      intro c hc
      rcases hcls c (by rw [hdecomp]; simp [hc]) with h | h
      · exact h
      · rw [hafree c hc] at h; cases h
    have hanod : ∀ c ∈ a, ¬(c = '.') := fun c hc => digit_ne_dot (hadig c hc)
    have hmap : clean.map commaToDot = b.map commaToDot ++ '.' :: a := by
      rw [hdecomp, List.map_append, List.map_cons, commaToDot_sep hc0,
        map_commaToDot_digits hadig]
    have hfclean : clean.filter Char.isDigit = b.filter Char.isDigit ++ a := by
      rw [hdecomp, List.filter_append, List.filter_cons]
      rw [filter_digits_eq_self hadig]
      simp [isSep_not_digit hc0]
    by_cases hsepb : ∃ c ∈ b, isSep c = true
    · -- at least two separators in `clean`: the join step fires
      obtain ⟨cs, hcsm, hcss⟩ := hsepb
      have hdotm : '.' ∈ b.map commaToDot :=
        List.mem_map.mpr ⟨cs, hcsm, commaToDot_sep hcss⟩
      have hcnt : 1 ≤ (b.map commaToDot).count '.' := List.count_pos_iff.mpr hdotm
      have hsplita : splitOnDot a = [a] := splitOnDot_no_dot a hanod
      have hbD : ∀ c ∈ b.filter Char.isDigit, c.isDigit = true :=
        fun c hc => by simpa using (List.mem_filter.mp hc).2
      have hnorm : pyDotNormalize (b.map commaToDot ++ '.' :: a)
          = b.filter Char.isDigit ++ '.' :: a := by
        have hlen : (splitOnDot (b.map commaToDot) ++ [a]).length > 2 := by
          rw [List.length_append, length_splitOnDot]
          simp only [List.length_cons, List.length_nil]
          omega
        rw [pyDotNormalize, splitOnDot_append, hsplita]
        rw [if_pos hlen]
        rw [List.dropLast_concat, List.getLast?_concat, joinParts_splitOnDot,
          filter_map_commaToDot hbcls]
        rfl
      rw [hmap, hnorm, pyFloatParse_digits_dot _ a hbD hadig, hfclean]
      by_cases hz : b.filter Char.isDigit ++ a = [] <;> simp [hz]
    · -- exactly one separator: the string already has a single dot
      have hball : ∀ c ∈ b, c.isDigit = true := by
        intro c hc
        rcases hbcls c hc with h | h
        · exact h
        · exact absurd ⟨c, hc, h⟩ hsepb
      have hbnod : ∀ c ∈ b, ¬(c = '.') := fun c hc => digit_ne_dot (hball c hc)
      have hnorm : pyDotNormalize (b.map commaToDot ++ '.' :: a)
          = b.map commaToDot ++ '.' :: a := by
        rw [pyDotNormalize, splitOnDot_append, splitOnDot_no_dot a hanod,
          map_commaToDot_digits hball, splitOnDot_no_dot b hbnod]
        simp
      rw [hmap, hnorm, map_commaToDot_digits hball,
        pyFloatParse_digits_dot b a hball hadig, hfclean, filter_digits_eq_self hball]
      by_cases hz : b ++ a = [] <;> simp [hz, filter_digits_eq_self hball]

/-- The coercion implemented by `_extract_numeric_value` coincides with the
specification's description of `coerceNumber` on every string input. -/
theorem extract_numeric_value_eq_spec (s : String) :
    extract_numeric_value (.str s) = coerceNumberSpec s :=
  coerce_core (keepNumeric s.data) (keepNumeric_classes s.data)

/-! ## Lemmas: structural addressing and the round-trip law -/

theorem matchIdxsAux_length (cs : List HTree) (tg : String) :
    ∀ i0, (matchIdxsAux cs tg i0).length
      = (cs.filter (fun d => d.tagName = tg)).length := by
  induction cs with
  | nil => intro i0; rfl
  | cons c cs ih =>
    intro i0
    rw [matchIdxsAux, List.filter_cons]
    by_cases h : c.tagName = tg
    · rw [if_pos (by simpa using h), if_pos (by simpa using h)]
      simp [ih]
    · rw [if_neg (by simpa using h), if_neg (by simpa using h)]
      exact ih _

theorem matchIdxsAux_drop (cs : List HTree) (tg : String) :
    ∀ i0 i c, cs[i]? = some c → c.tagName = tg →
      ∃ rest, (matchIdxsAux cs tg i0).drop
          (((cs.take i).filter (fun d => d.tagName = tg)).length)
        = (i0 + i) :: rest := by
  induction cs with
  | nil => intro i0 i c h; cases h
  | cons d cs ih =>
    intro i0 i c h htag
    cases i with
    | zero =>
      rw [List.getElem?_cons_zero] at h
      obtain rfl : d = c := Option.some.inj h
      rw [List.take_zero]
      rw [matchIdxsAux, if_pos (by simpa using htag)]
      refine ⟨matchIdxsAux cs tg (i0 + 1), ?_⟩
      simp
    | succ j =>
      rw [List.getElem?_cons_succ] at h
      rw [List.take_succ_cons, List.filter_cons, matchIdxsAux]
      obtain ⟨rest, hr⟩ := ih (i0 + 1) j c h htag
      by_cases hd : d.tagName = tg
      · rw [if_pos (by simpa using hd), if_pos (by simpa using hd)]
        refine ⟨rest, ?_⟩
        simp only [List.length_cons, List.drop_succ_cons]
        rw [hr]
        congr 1
        omega
      · rw [if_neg (by simpa using hd), if_neg (by simpa using hd)]
        refine ⟨rest, ?_⟩
        rw [hr]
        congr 1
        omega

theorem resolveRel_getpath :
    ∀ (p : List ℕ) (t : HTree), (nodeAt t p).isSome →
      ∃ r, relSteps t p = some r ∧ resolveRel t r = [p] := by
  intro p
  induction p with
  | nil => intro t _; exact ⟨[], rfl, rfl⟩
  | cons i p ih =>
    intro t h
    rw [nodeAt] at h
    rcases hc : (elemChildren t)[i]? with _ | c <;> rw [hc] at h
    · simp at h
    · obtain ⟨r, hr, hres⟩ := ih c h
      obtain ⟨rest, hdrop⟩ := matchIdxsAux_drop (elemChildren t) c.tagName 0 i c hc rfl
      simp only [Nat.zero_add] at hdrop
      have hstep : stepFor t i
          = some (c.tagName,
              if ((elemChildren t).filter (fun d => d.tagName = c.tagName)).length > 1 then
                some (1 + (((elemChildren t).take i).filter
                  (fun d => d.tagName = c.tagName)).length)
              else none) := by
        rw [stepFor, hc]
      have hchosen :
          (match (if ((elemChildren t).filter (fun d => d.tagName = c.tagName)).length > 1 then
                some (1 + (((elemChildren t).take i).filter
                  (fun d => d.tagName = c.tagName)).length)
              else none : Option ℕ) with
            | none => matchIdxs t c.tagName
            | some k => ((matchIdxs t c.tagName).drop (k - 1)).take 1) = [i] := by
        by_cases hlen : ((elemChildren t).filter (fun d => d.tagName = c.tagName)).length > 1
        · rw [if_pos hlen]
          simp only [Nat.add_sub_cancel_left, matchIdxs]
          rw [hdrop]
          rfl
        · rw [if_neg hlen]
          simp only [matchIdxs] at hdrop ⊢
          have hml : (matchIdxsAux (elemChildren t) c.tagName 0).length ≤ 1 := by
            rw [matchIdxsAux_length]
            omega
          have hlen2 := congrArg List.length hdrop
          rw [List.length_drop] at hlen2
          simp only [List.length_cons] at hlen2
          have hbc0 : (((elemChildren t).take i).filter
              (fun d => d.tagName = c.tagName)).length = 0 := by omega
          have hrest0 : rest.length = 0 := by omega
          rw [hbc0, List.drop_zero] at hdrop
          rw [hdrop, List.eq_nil_of_length_eq_zero hrest0]
      refine ⟨(c.tagName,
          if ((elemChildren t).filter (fun d => d.tagName = c.tagName)).length > 1 then
            some (1 + (((elemChildren t).take i).filter
              (fun d => d.tagName = c.tagName)).length)
          else none) :: r, ?_, ?_⟩
      · rw [relSteps, hstep, hc]
        dsimp only
        rw [hr]
        rfl
      · simp only [resolveRel]
        rw [hchosen, List.flatMap_cons, hc]
        dsimp only
        rw [hres]
        simp

/-- The round-trip law: resolving the `getpath` of any node of a document
against that same document yields exactly that node. -/
theorem getpath_roundtrip (doc : HTree) (a : List ℕ) (h : (nodeAt doc a).isSome) :
    (getpathAbs doc a).map (resolveAbs doc) = some [a] := by
  obtain ⟨r, hr, hres⟩ := resolveRel_getpath a doc h
  rw [getpathAbs, hr]
  show some (resolveAbs doc ((doc.tagName, none) :: r)) = some [a]
  rw [resolveAbs, if_pos ⟨rfl, Or.inl rfl⟩, hres]

/-! ## Lemmas: element scans visit only real nodes -/

theorem subAddrsF_eq : ∀ (cs : HForest) (i0 : ℕ), subAddrsF cs i0 = subAddrsL (elemListF cs) i0
  | .nil, _ => rfl
  | .cons (.text s) rest, i0 => by
    rw [subAddrsF, subAddrsF_eq rest i0]
    rfl
  | .cons (.elem tg ats cs) rest, i0 => by
    show (subAddrs (.elem tg ats cs)).map (fun q => i0 :: q) ++ subAddrsF rest (i0 + 1)
        = subAddrsL (elemListF (.cons (.elem tg ats cs) rest)) i0
    rw [subAddrsF_eq rest (i0 + 1)]
    rfl

theorem subAddrsL_mem (l : List HTree) :
    ∀ i0 p, p ∈ subAddrsL l i0 →
      ∃ j q c, p = (i0 + j) :: q ∧ l[j]? = some c ∧ q ∈ subAddrs c := by
  induction l with
  | nil => intro i0 p h; cases h
  | cons c rest ih =>
    intro i0 p h
    rw [subAddrsL] at h
    rcases List.mem_append.mp h with h1 | h1
    · obtain ⟨q, hq, rfl⟩ := List.mem_map.mp h1
      exact ⟨0, q, c, by simp, by simp, hq⟩
    · obtain ⟨j, q, c', hp, hj, hq⟩ := ih (i0 + 1) p h1
      refine ⟨j + 1, q, c', ?_, by simpa using hj, hq⟩
      rw [hp]
      congr 1
      omega

theorem nodeAt_of_mem_subAddrs :
    ∀ (p : List ℕ) (t : HTree), p ∈ subAddrs t → (nodeAt t p).isSome := by
  intro p
  induction p with
  | nil => intro t _; simp [nodeAt]
  | cons i q ih =>
    intro t h
    cases t with
    | text s => simp [subAddrs] at h
    | elem tg ats cs =>
      rw [subAddrs] at h
      rcases List.mem_cons.mp h with h1 | h1
      · cases h1
      · rw [subAddrsF_eq] at h1
        obtain ⟨j, q', c, hpq, hj, hq⟩ := subAddrsL_mem _ 0 _ h1
        simp only [Nat.zero_add] at hpq
        obtain ⟨hi, hqq⟩ : i = j ∧ q = q' := by
          injection hpq with h1 h2
          exact ⟨h1, h2⟩
        subst hi; subst hqq
        rw [nodeAt]
        have hch : elemChildren (HTree.elem tg ats cs) = elemListF cs := rfl
        rw [hch, hj]
        exact ih c hq

theorem relSteps_isSome :
    ∀ (p : List ℕ) (t : HTree), (nodeAt t p).isSome → (relSteps t p).isSome := by
  intro p
  induction p with
  | nil => intro t _; simp [relSteps]
  | cons i q ih =>
    intro t h
    rw [nodeAt] at h
    rcases hc : (elemChildren t)[i]? with _ | c <;> rw [hc] at h
    · simp at h
    · have hsome := ih c h
      rw [relSteps, stepFor, hc]
      dsimp only
      rcases hr : relSteps c q with _ | r
      · rw [hr] at hsome; simp at hsome
      · rfl

theorem getpathAbs_isSome (doc : HTree) (a : List ℕ) (h : (nodeAt doc a).isSome) :
    (getpathAbs doc a).isSome := by
  rw [getpathAbs]
  have := relSteps_isSome a doc h
  rcases hr : relSteps doc a with _ | r <;> rw [hr] at this
  · simp at this
  · simp

/-! ## Lemmas: the tier-1 title scan and the price-pattern cascade -/

theorem find?_congr {α : Type} (p q : α → Bool) (h : ∀ a, p a = q a) :
    ∀ l : List α, l.find? p = l.find? q
  | [] => rfl
  | a :: l => by rw [List.find?_cons, List.find?_cons, h a, find?_congr p q h l]

theorem scanTier1_eq_find (doc : HTree) (tn : String) (tw : List (List Char)) :
    ∀ L : List (List ℕ), (∀ a ∈ L, (nodeAt doc a).isSome) →
      scanTier1 doc tn tw L
        = (L.find? (fun a =>
            (containsSub tn.data (lowerStr (normalizeText (serializeAt doc a))).data
              || containsSub (lowerStr (normalizeText (serializeAt doc a))).data tn.data)
            || (decide (3 ≤ tw.length)
              && decide (3 ≤ sharedWordCount tw
                  (lowerStr (normalizeText (serializeAt doc a))))))).bind
          (getpathAbs doc) := by
  intro L
  induction L with
  | nil => intro _; rfl
  | cons a rest ih =>
    intro hL
    have hsome := getpathAbs_isSome doc a (hL a (by simp))
    obtain ⟨x, hx⟩ := Option.isSome_iff_exists.mp hsome
    have ihr := ih (fun b hb => hL b (by simp [hb]))
    rw [scanTier1, List.find?_cons]
    by_cases h1 : (containsSub tn.data (lowerStr (normalizeText (serializeAt doc a))).data
        || containsSub (lowerStr (normalizeText (serializeAt doc a))).data tn.data) = true
    · rw [if_pos h1, hx]
      simp only [h1, Bool.true_or]
      simp [Option.orElse, hx]
    · rw [if_neg h1]
      simp only [Bool.not_eq_true] at h1
      rw [h1]
      simp only [Bool.false_or]
      by_cases h2 : (decide (3 ≤ tw.length)
          && decide (3 ≤ sharedWordCount tw
              (lowerStr (normalizeText (serializeAt doc a))))) = true
      · rw [if_pos h2, h2, hx]
        simp [Option.orElse, hx]
      · simp only [Bool.not_eq_true] at h2
        rw [if_neg (by simp [h2]), h2, ihr]
        simp [Option.orElse]

theorem titleTier1Match_pointwise (doc : HTree) (title : String) (a : List ℕ) :
    ((containsSub (normalizeText (lowerStr title)).data
          (lowerStr (normalizeText (serializeAt doc a))).data
        || containsSub (lowerStr (normalizeText (serializeAt doc a))).data
          (normalizeText (lowerStr title)).data)
      || (decide (3 ≤ ((splitWs (normalizeText (lowerStr title)).data).filter
            (fun w => w.length > 2)).length)
        && decide (3 ≤ sharedWordCount
            ((splitWs (normalizeText (lowerStr title)).data).filter (fun w => w.length > 2))
            (lowerStr (normalizeText (serializeAt doc a))))))
      = titleTier1Match doc title a := by
  rw [titleTier1Match]
  by_cases he : normalizeText (lowerStr title) = lowerStr (normalizeText (serializeAt doc a))
  · rw [he]
    simp [containsSub_refl]
  · simp only [decide_eq_false he, Bool.false_or, Bool.or_assoc]

/-- The tier-1 scan picks the first heading (in the h1–h4, document-order
scan) satisfying the code's match predicate, and returns its `getpath`. -/
theorem find_title_tier1_eq (doc : HTree) (title : String) :
    find_title_tier1 doc title
      = ((headingAddrs doc).find? (titleTier1Match doc title)).bind (getpathAbs doc) := by
  have hmem : ∀ a ∈ headingAddrs doc, (nodeAt doc a).isSome := by
    intro a ha
    rw [headingAddrs] at ha
    obtain ⟨tg, _, ha2⟩ := List.mem_flatMap.mp ha
    rw [tagAddrs] at ha2
    exact nodeAt_of_mem_subAddrs a doc (List.mem_filter.mp ha2).1
  rw [find_title_tier1, scanTier1_eq_find doc _ _ (headingAddrs doc) hmem]
  congr 1
  exact find?_congr _ _ (fun a => titleTier1Match_pointwise doc title a) _

theorem runPricePatterns_cons (p : List Char → Option (List Char))
    (ps : List (List Char → Option (List Char))) (l : List Char) :
    runPricePatterns (p :: ps) l = (tryPattern p l <|> runPricePatterns ps l) := by
  cases h : tryPattern p l <;> simp [runPricePatterns, h, Option.orElse]

/-- The pattern loop plus fallback of the extractor is exactly the cascade
the specification describes. -/
theorem extractPrice_eq_spec (s : String) :
    extractPriceFromText s = specPriceCascade s := by
  rw [extractPriceFromText, specPriceCascade, pricePatternList,
    runPricePatterns_cons, runPricePatterns_cons, runPricePatterns_cons]
  cases h1 : tryPattern p1FirstNum s.data <;>
    cases h2 : tryPattern (sepDecFirst '.') s.data <;>
      cases h3 : tryPattern (sepDecFirst ',') s.data <;>
        simp [runPricePatterns, Option.orElse]

/-! ## The claims -/

/-- **C1** (corrected).  For the document parsed from
`<h1>Wireless Mouse</h1><span class="price">$19.99</span>` with source
values title `Wireless Mouse`, price 19.99, currency `USD`: the synthesized
title path resolves to the `h1`, the price path resolves to the `span`, and
the Value Extractor returns price 19.99 — but the Consistency Validator
reports title and price matching and currency NOT matching (the extractor
returns `$` from the price span while the source says `USD`), so
`all_match` is `false`, not `true` as the claim states. -/
theorem C1_pipeline :
    selsC1.title_xpath = some [("html", none), ("body", none), ("h1", none)]
    ∧ resolveAbs docC1 [("html", none), ("body", none), ("h1", none)] = [[0, 0]]
    ∧ tagAt docC1 [0, 0] = "h1"
    ∧ selsC1.price_xpath = some [("html", none), ("body", none), ("span", none)]
    ∧ resolveAbs docC1 [("html", none), ("body", none), ("span", none)] = [[0, 1]]
    ∧ tagAt docC1 [0, 1] = "span"
    ∧ (extract_values_with_selectors (some docC1) selsC1).price = some (19.99 : ℚ)
    ∧ (extract_values_with_selectors (some docC1) selsC1).currency = some "$"
    ∧ (compare_selectors_with_agentql (some docC1) selsC1 avC1).per_field_match
        = ⟨true, true, false⟩
    ∧ (compare_selectors_with_agentql (some docC1) selsC1 avC1).all_match = false := by
  decide

/-- **C1** counterexample: on exactly the claimed input, the Consistency
Validator reports `all_match = false`, not `true`. -/
theorem C1_counterexample :
    (compare_selectors_with_agentql (some docC1) selsC1 avC1).all_match = false := by
  decide

/-- **C2** (amended): the title locator's first tier selects a heading
(h1–h4, document order within each level, first match wins) exactly when
`titleTier1Match` holds — the containment/word-overlap rule computed on the
normalized lower-cased *serialization* of the heading (its outer HTML), not
on the heading's text content as the claim states. -/
theorem C2_tier1_first_match (doc : HTree) (title : String) :
    find_title_tier1 doc title
      = ((headingAddrs doc).find? (titleTier1Match doc title)).bind (getpathAbs doc) :=
  find_title_tier1_eq doc title

/-- **C2** counterexample: `docC2` holds a single `h1` whose normalized text
`wireless mouse` is contained in the normalized target
`the wireless mouse pro` — the claim's text-based rule selects it — yet
tier 1 (and the whole locator) selects nothing, because the code compares
against the serialization `<h1>wireless mouse</h1>`. -/
theorem C2_counterexample :
    headingAddrs docC2 = [[0, 0]]
    ∧ specTitleTier1Match docC2 "the wireless mouse pro" [0, 0] = true
    ∧ containsSub (lowerStr (specHeadingText docC2 [0, 0])).data
        (normalizeText (lowerStr "the wireless mouse pro")).data = true
    ∧ find_title_tier1 docC2 "the wireless mouse pro" = none
    ∧ find_title_selector docC2 "the wireless mouse pro" = none := by
  decide

/-- **C3** (confirmed): `_extract_numeric_value` strips everything except
digits, commas and periods, treats only the final remaining separator as the
decimal point (earlier separators are concatenated away), yields 0.0 on
parse failure, and in particular maps `$1,234.50` to 1234.50 and `abc`
to 0.0. -/
theorem C3_coerce_number :
    (∀ s : String, extract_numeric_value (.str s) = coerceNumberSpec s)
    ∧ extract_numeric_value (.str "$1,234.50") = (1234.50 : ℚ)
    ∧ extract_numeric_value (.str "abc") = (0 : ℚ) :=
  ⟨extract_numeric_value_eq_spec, by decide, by decide⟩

/-- **C4** (confirmed): the round-trip law — for every document and every
node in it, resolving the XPath produced by `_get_xpath_from_element`
(lxml `getpath`) against the same document yields exactly that node. -/
theorem C4_roundtrip (doc : HTree) (a : List ℕ) (h : (nodeAt doc a).isSome) :
    (getpathAbs doc a).map (resolveAbs doc) = some [a] :=
  getpath_roundtrip doc a h

theorem C4_roundtrip_witness :
    (nodeAt docC1 [0, 1]).isSome = true
    ∧ (getpathAbs docC1 [0, 1]).map (resolveAbs docC1) = some [[0, 1]] :=
  ⟨by decide, C4_roundtrip docC1 [0, 1] (by decide)⟩

/-- **C5** (code bug).  `docC5` is the parse of
`<div><p>Price in € zone</p></div><div><span class="price">19.99</span><span>€</span></div>`.
The price path addresses `/html/body/div[2]/span[1]`; its immediate
following sibling `/html/body/div[2]/span[2]` contains `€` and no earlier
strategy-1 candidate matches, so the claim (and the code's commented
intent) says that sibling's path is returned.  The code instead drops the
sibling hit — `_get_xpath_from_element` receives a parsel `SelectorList`,
which has no `root` attribute, and returns `None` — and falls through to
the whole-document scan, which returns the decoy paragraph
`/html/body/div[1]/p`. -/
theorem C5_sibling_hit_dropped :
    getpathAbs docC5 [0, 1, 0]
        = some [("html", none), ("body", none), ("div", some 2), ("span", some 1)]
    ∧ getpathAbs docC5 [0, 1, 1]
        = some [("html", none), ("body", none), ("div", some 2), ("span", some 2)]
    ∧ containsSub "€".data (serializeAt docC5 [0, 1, 1]).data = true
    ∧ find_currency_selector docC5 "€" (getpathAbs docC5 [0, 1, 0])
        = some [("html", none), ("body", none), ("div", some 1), ("p", none)]
    ∧ find_currency_selector docC5 "€" (getpathAbs docC5 [0, 1, 0])
        ≠ some [("html", none), ("body", none), ("div", some 2), ("span", some 2)] := by
  decide

/-- **C6** (confirmed): the Value Extractor applies the three price patterns
in their fixed order to the normalized node text (the node's normalized
serialization), takes each pattern's first match with comma converted to a
decimal point, accepts it only inside `[0.01, 1000000]`, and otherwise
falls back to the first in-bound digit run; for node text
`Now $45.00 (was $60.00)` the extracted price is 45.00, not 60.00. -/
theorem C6_price_patterns :
    (∀ s : String, extractPriceFromText s = specPriceCascade s)
    ∧ (extract_values_with_selectors (some docC6) selsC6).price = some (45 : ℚ)
    ∧ (extract_values_with_selectors (some docC6) selsC6).price ≠ some (60 : ℚ) :=
  ⟨extractPrice_eq_spec, by decide, by decide⟩

/-- **C7** (confirmed): in the Consistency Validator, a field with an absent
side is reported non-matching, and `all_match` is the conjunction of the
three per-field booleans.  (The validator is a total function of its inputs:
absence never raises.) -/
theorem C7_validator_conservative (doc? : Option HTree) (sel : SelectorSet) (av : AgentVals) :
    ((compare_selectors_with_agentql doc? sel av).all_match
      = ((compare_selectors_with_agentql doc? sel av).per_field_match.title
        && (compare_selectors_with_agentql doc? sel av).per_field_match.price
        && (compare_selectors_with_agentql doc? sel av).per_field_match.currency))
    ∧ (av.title = none ∨ (extract_values_with_selectors doc? sel).title = none
        → (compare_selectors_with_agentql doc? sel av).per_field_match.title = false)
    ∧ (av.price = none ∨ (extract_values_with_selectors doc? sel).price = none
        → (compare_selectors_with_agentql doc? sel av).per_field_match.price = false)
    ∧ (av.currency = none ∨ (extract_values_with_selectors doc? sel).currency = none
        → (compare_selectors_with_agentql doc? sel av).per_field_match.currency = false) := by
  refine ⟨rfl, ?_, ?_, ?_⟩
  · intro h
    rcases h with h | h <;> simp [compare_selectors_with_agentql, h, optTruthy]
  · intro h
    rcases h with h | h
    · simp [compare_selectors_with_agentql, h]
    · cases hap : av.price <;> simp [compare_selectors_with_agentql, h, hap]
  · intro h
    rcases h with h | h <;> simp [compare_selectors_with_agentql, h, optTruthy]

theorem C7_validator_conservative_witness :
    (compare_selectors_with_agentql none ⟨none, none, none⟩
        ⟨none, none, none⟩).per_field_match.title = false
    ∧ (compare_selectors_with_agentql none ⟨none, none, none⟩
        ⟨none, none, none⟩).per_field_match.price = false
    ∧ (compare_selectors_with_agentql none ⟨none, none, none⟩
        ⟨none, none, none⟩).per_field_match.currency = false
    ∧ (compare_selectors_with_agentql none ⟨none, none, none⟩
        ⟨none, none, none⟩).all_match = false := by
  obtain ⟨h1, h2, h3, h4⟩ :=
    C7_validator_conservative none ⟨none, none, none⟩ ⟨none, none, none⟩
  refine ⟨h2 (Or.inl rfl), h3 (Or.inl rfl), h4 (Or.inl rfl), ?_⟩
  rw [h1, h2 (Or.inl rfl), h3 (Or.inl rfl), h4 (Or.inl rfl)]
  rfl

/-- **C8** (confirmed): whenever the coercion of the price input is the
sentinel 0.0 (including the `None` input, whose branch returns first), the
price locator returns `none` rather than a path. -/
theorem C8_zero_price_guard (doc : HTree) (price : Option PyVal)
    (h : ∀ v, price = some v → extract_numeric_value v = 0) :
    find_price_selector doc price = none := by
  cases price with
  | none => rfl
  | some v =>
    have hv := h v rfl
    simp [find_price_selector, hv]

theorem C8_zero_price_guard_witness :
    extract_numeric_value (.str "abc") = 0
    ∧ find_price_selector emptyDoc (some (.str "abc")) = none :=
  ⟨by decide, C8_zero_price_guard emptyDoc (some (.str "abc"))
      (fun v hv => by cases hv; decide)⟩

/-- **C9** (confirmed): for every document and every non-empty title all of
whose whitespace-separated words have length at most 2, the title locator
returns `none` — even when the document contains a heading whose text
exactly equals the title (the witness instantiates such a document). -/
theorem C9_short_words (doc : HTree) (title : String) (hne : ¬(title = ""))
    (hshort : ∀ w ∈ splitWs title.data, w.length ≤ 2) :
    find_title_selector doc title = none := by
  have h1 : splitWs (lowerStr title).data
      = (splitWs title.data).map (List.map Char.toLower) :=
    splitWs_map Char.toLower isWsChar_toLower title.data
  have h2 : splitWs (normalizeText (lowerStr title)).data
      = (splitWs title.data).map (List.map Char.toLower) := by
    rw [show splitWs (normalizeText (lowerStr title)).data
        = splitWs (lowerStr title).data from splitWs_normalize (lowerStr title).data]
    exact h1
  have htw : (splitWs (normalizeText (lowerStr title)).data).filter
      (fun w => w.length > 2) = [] := by
    rw [h2, List.filter_map]
    rw [List.filter_eq_nil_iff.mpr]
    · rfl
    · intro w hw
      have := hshort w hw
      simp [List.length_map]
      omega
  simp only [find_title_selector, if_neg hne, htw]
  simp

theorem C9_short_words_witness :
    ¬("4K TV" = "")
    ∧ (∀ w ∈ splitWs "4K TV".data, w.length ≤ 2)
    ∧ tagAt docC9 [0, 0] = "h1"
    ∧ specHeadingText docC9 [0, 0] = "4K TV"
    ∧ find_title_selector docC9 "4K TV" = none :=
  ⟨by decide, by decide, by decide, by decide,
    C9_short_words docC9 "4K TV" (by decide) (by decide)⟩

/-- **C10** (confirmed): `extract_selectors` is a total function producing a
record with exactly the fields `title_xpath`, `price_xpath`,
`currency_xpath`; a parse failure (the `except` branch, modelled by the
`none` document) yields the all-`none` record for every input — which the
empty-document conjunct shows is indistinguishable from nothing found. -/
theorem C10_total_selectors :
    (∀ (title : String) (price : Option PyVal) (currency : String),
        extract_selectors none title price currency
          = (⟨none, none, none⟩ : SelectorSet))
    ∧ extract_selectors (some emptyDoc) "Widget" (some (.str "abc")) "EUR"
        = (⟨none, none, none⟩ : SelectorSet) :=
  ⟨fun _ _ _ => rfl, by decide⟩

end EyraScraper
